import Mathlib

/-!
Verification development for the Section Detection and Boundary Resolution
Engine of `scripts/split_pdf_by_chapters.py`.

The engine is embedded shallowly: lines and titles are lists of characters
(Python strings restricted to the ASCII behaviour actually exercised by the
engine), line and page numbers are integers (the code uses `-1` sentinels and
computes `start - 1`), and every stage of the pipeline is a computable Lean
function mirroring the corresponding Python method.
-/

namespace GF

/-! ## Python string primitives (ASCII model) -/

/-- Python whitespace characters (`str.split`, `str.strip`, `\s`). -/
def isPySpace (c : Char) : Bool :=
  c = ' ' || c = '\t' || c = '\n' || c = '\r' || c = '\x0b' || c = '\x0c'

def isDigitC (c : Char) : Bool := '0' ≤ c && c ≤ '9'

def isUpperAlpha (c : Char) : Bool := 'A' ≤ c && c ≤ 'Z'

def isLowerAlpha (c : Char) : Bool := 'a' ≤ c && c ≤ 'z'

def isAlphaC (c : Char) : Bool := isUpperAlpha c || isLowerAlpha c

/-- The 26 ASCII letter pairs (uppercase, lowercase). -/
def LETTER_PAIRS : List (Char × Char) :=
  [('A', 'a'), ('B', 'b'), ('C', 'c'), ('D', 'd'), ('E', 'e'), ('F', 'f'),
   ('G', 'g'), ('H', 'h'), ('I', 'i'), ('J', 'j'), ('K', 'k'), ('L', 'l'),
   ('M', 'm'), ('N', 'n'), ('O', 'o'), ('P', 'p'), ('Q', 'q'), ('R', 'r'),
   ('S', 's'), ('T', 't'), ('U', 'u'), ('V', 'v'), ('W', 'w'), ('X', 'x'),
   ('Y', 'y'), ('Z', 'z')]

/-- ASCII lowercasing (Python `str.lower` on the engine's alphabet). -/
def toLowerC (c : Char) : Char :=
  match LETTER_PAIRS.find? (fun p => decide (p.1 = c)) with
  | some p => p.2
  | none => c

/-- ASCII uppercasing (Python `str.upper`). -/
def toUpperC (c : Char) : Char :=
  match LETTER_PAIRS.find? (fun p => decide (p.2 = c)) with
  | some p => p.1
  | none => c

def pyLower (l : List Char) : List Char := l.map toLowerC

/-- Python `str.strip()`. -/
def pyStrip (l : List Char) : List Char :=
  ((l.dropWhile isPySpace).reverse.dropWhile isPySpace).reverse

/-- Worker for `pyWords`: `acc` holds the current in-progress word reversed. -/
def wordsGo : List Char → List Char → List (List Char)
  | [], acc => if acc = [] then [] else [acc.reverse]
  | c :: cs, acc =>
    if isPySpace c then
      if acc = [] then wordsGo cs [] else acc.reverse :: wordsGo cs []
    else wordsGo cs (c :: acc)

/-- Python `str.split()` with no separator: split on whitespace runs,
discarding empty pieces. -/
def pyWords (l : List Char) : List (List Char) := wordsGo l []

/-- Python `' '.join(parts)`. -/
def joinSpace : List (List Char) → List Char
  | [] => []
  | [w] => w
  | w :: x :: ws => w ++ ' ' :: joinSpace (x :: ws)

/-- Python `str.isupper()` (ASCII: at least one letter, no lowercase letter). -/
def pyIsUpper (l : List Char) : Bool :=
  l.any isAlphaC && l.all (fun c => !(isLowerAlpha c))

def digitsToNat (ds : List Char) : Nat :=
  ds.foldl (fun acc c => acc * 10 + (c.toNat - 48)) 0

def digitsToInt (ds : List Char) : Int := (digitsToNat ds : Int)

def digitChar (n : Nat) : Char := Char.ofNat (48 + n)

def natToDigitsAux : Nat → Nat → List Char
  | 0, _ => []
  | fuel + 1, n =>
    if n < 10 then [digitChar n]
    else natToDigitsAux fuel (n / 10) ++ [digitChar (n % 10)]

/-- Decimal digits of a natural number (Python `str` on a nonnegative int). -/
def natToDigits (n : Nat) : List Char := natToDigitsAux (n + 1) n

/-- Python `str(n)` for an int. -/
def intStr (n : Int) : List Char :=
  if n < 0 then '-' :: natToDigits (-n).toNat else natToDigits n.toNat

/-- Python `f-string` formatting `{n:02d}`. -/
def fmt02 (n : Int) : List Char :=
  let s := intStr n
  if s.length < 2 then '0' :: s else s

/-! ## Data model (`SectionType`, `Section`) -/

/-- `SectionType` enum of the splitter (the Lean keyword `section` forces the
constructor name `sect`). -/
inductive SectionType where
  | chapter
  | part
  | sect
  | appendix
  | introduction
  | glossary
  | index
deriving DecidableEq

/-- A continuation range appended to `Section.subsections` by the merger.
In the source these are `Section` objects with empty `subsections`; the code
never reads a nested `subsections`, so they are modelled as a flat record. -/
structure SubSec where
  section_type : SectionType
  number : Option Int
  title : List Char
  start_line : Int
  end_line : Int
  start_page : Int
  end_page : Int
  filename : List Char
deriving DecidableEq

/-- The `Section` dataclass of `split_pdf_by_chapters.py`. -/
structure Section where
  section_type : SectionType
  number : Option Int
  title : List Char
  start_line : Int
  end_line : Int
  start_page : Int
  end_page : Int
  filename : List Char
  subsections : List SubSec
deriving DecidableEq

/-! ## Heading pattern matcher (`SectionDetector.CHAPTER_PATTERNS` etc.) -/

/-- Case-insensitive literal keyword match; returns the rest of the line.
The keyword is given uppercased. -/
def stripKeyword (kw : List Char) (l : List Char) : Option (List Char) :=
  if (l.take kw.length).map toUpperC = kw then some (l.drop kw.length) else none

/-- Case-sensitive literal keyword match (for the `PAGE` marker patterns,
which are compiled without `re.IGNORECASE`). -/
def stripKeywordCS (kw : List Char) (l : List Char) : Option (List Char) :=
  if l.take kw.length = kw then some (l.drop kw.length) else none

/-- `\s+`: require at least one whitespace character, consume the run. -/
def ws1 : List Char → Option (List Char)
  | [] => none
  | c :: cs => if isPySpace c then some (cs.dropWhile isPySpace) else none

/-- `(?::\s*(.*))?$` after the ordinal token: either end of line (no inline
title, group absent) or a colon followed by the title text.  The returned
string already reflects `groups[1].strip()` as applied by `detect_sections`
(absent group and empty group both give the empty title). -/
def tailTitle : List Char → Option (List Char)
  | [] => some []
  | c :: cs => if c = ':' then some (pyStrip cs) else none

/-- `^CHAPTER\s+(\d+)(?::\s*(.*))?$` (IGNORECASE). -/
def matchChapterDigits (l : List Char) : Option (List Char × List Char) :=
  match stripKeyword "CHAPTER".toList l with
  | none => none
  | some r =>
    match ws1 r with
    | none => none
    | some r2 =>
      let ds := r2.takeWhile isDigitC
      if ds = [] then none
      else
        match tailTitle (r2.dropWhile isDigitC) with
        | none => none
        | some ti => some (ds, ti)

def WORD_NUMBER_TOKENS : List (List Char) :=
  ["ONE", "TWO", "THREE", "FOUR", "FIVE", "SIX", "SEVEN", "EIGHT", "NINE",
   "TEN", "ELEVEN", "TWELVE"].map String.toList

/-- Ordered alternation over the word-number vocabulary: an alternative whose
continuation fails falls through to the next one, as regex backtracking does. -/
def tryWordTokens : List (List Char) → List Char → Option (List Char × List Char)
  | [], _ => none
  | w :: rest, r =>
    if (r.take w.length).map toUpperC = w then
      match tailTitle (r.drop w.length) with
      | some ti => some (r.take w.length, ti)
      | none => tryWordTokens rest r
    else tryWordTokens rest r

/-- `^CHAPTER\s+(ONE|...|TWELVE)(?::\s*(.*))?$` (IGNORECASE). -/
def matchChapterWord (l : List Char) : Option (List Char × List Char) :=
  match stripKeyword "CHAPTER".toList l with
  | none => none
  | some r =>
    match ws1 r with
    | none => none
    | some r2 => tryWordTokens WORD_NUMBER_TOKENS r2

def isRomanChar (c : Char) : Bool :=
  toUpperC c = 'I' || toUpperC c = 'V' || toUpperC c = 'X'

/-- `^PART\s+(\d+|[IVX]+)(?::\s*(.*))?$` (IGNORECASE).  A shorter greedy run
would leave a digit (resp. roman char) adjacent, which can satisfy neither
`:` nor end-of-line, so matching the maximal run is exact. -/
def matchPart (l : List Char) : Option (List Char × List Char) :=
  match stripKeyword "PART".toList l with
  | none => none
  | some r =>
    match ws1 r with
    | none => none
    | some r2 =>
      let ds := r2.takeWhile isDigitC
      if ds ≠ [] then
        match tailTitle (r2.dropWhile isDigitC) with
        | some ti => some (ds, ti)
        | none => tryRoman r2
      else tryRoman r2
where
  tryRoman (r2 : List Char) : Option (List Char × List Char) :=
    let rs := r2.takeWhile isRomanChar
    if rs = [] then none
    else
      match tailTitle (r2.dropWhile isRomanChar) with
      | none => none
      | some ti => some (rs, ti)

/-- `^SECTION\s+(\d+)(?::\s*(.*))?$` (IGNORECASE). -/
def matchSectionNum (l : List Char) : Option (List Char × List Char) :=
  match stripKeyword "SECTION".toList l with
  | none => none
  | some r =>
    match ws1 r with
    | none => none
    | some r2 =>
      let ds := r2.takeWhile isDigitC
      if ds = [] then none
      else
        match tailTitle (r2.dropWhile isDigitC) with
        | none => none
        | some ti => some (ds, ti)

/-- `^APPENDIX\s+([A-Z]|\d+)(?::\s*(.*))?$` (IGNORECASE). -/
def matchAppendix (l : List Char) : Option (List Char × List Char) :=
  match stripKeyword "APPENDIX".toList l with
  | none => none
  | some r =>
    match ws1 r with
    | none => none
    | some r2 =>
      match r2 with
      | [] => none
      | c :: rest2 =>
        if isAlphaC c then
          match tailTitle rest2 with
          | some ti => some ([c], ti)
          | none => none
        else
          let ds := r2.takeWhile isDigitC
          if ds = [] then none
          else
            match tailTitle (r2.dropWhile isDigitC) with
            | none => none
            | some ti => some (ds, ti)

/-- `any(pattern.match(line) for pattern, _ in CHAPTER_PATTERNS)` as used by
the title extractor (the standalone patterns are never consulted there). -/
def matchesAnyChapterPattern (l : List Char) : Bool :=
  (matchChapterDigits l).isSome || (matchChapterWord l).isSome ||
  (matchPart l).isSome || (matchSectionNum l).isSome || (matchAppendix l).isSome

/-- `^INTRODUCTION\s*$` (IGNORECASE), standalone marker. -/
def matchIntroduction (l : List Char) : Bool :=
  match stripKeyword "INTRODUCTION".toList l with
  | some r => r.all isPySpace
  | none => false

/-- `^GLOSSARY(?:\s+(?:AND|&)\s+INDEX)?\s*$` (IGNORECASE), standalone marker. -/
def matchGlossary (l : List Char) : Bool :=
  match stripKeyword "GLOSSARY".toList l with
  | none => false
  | some r =>
    r.all isPySpace ||
      (match ws1 r with
       | none => false
       | some r2 =>
         let afterConj : Option (List Char) :=
           match stripKeyword "AND".toList r2 with
           | some r3 => some r3
           | none =>
             match r2 with
             | '&' :: r3 => some r3
             | _ => none
         match afterConj with
         | none => false
         | some r3 =>
           match ws1 r3 with
           | none => false
           | some r4 =>
             match stripKeyword "INDEX".toList r4 with
             | some r5 => r5.all isPySpace
             | none => false)

/-- `^INDEX\s*$` (IGNORECASE), standalone marker. -/
def matchIndexMarker (l : List Char) : Bool :=
  match stripKeyword "INDEX".toList l with
  | some r => r.all isPySpace
  | none => false

/-! ## Ordinal resolution (`SectionDetector._convert_to_number`) -/

def WORD_TO_NUM : List (List Char × Int) :=
  [("one".toList, 1), ("two".toList, 2), ("three".toList, 3),
   ("four".toList, 4), ("five".toList, 5), ("six".toList, 6),
   ("seven".toList, 7), ("eight".toList, 8), ("nine".toList, 9),
   ("ten".toList, 10), ("eleven".toList, 11), ("twelve".toList, 12)]

def ROMAN_TO_NUM : List (List Char × Int) :=
  [("I".toList, 1), ("II".toList, 2), ("III".toList, 3), ("IV".toList, 4),
   ("V".toList, 5), ("VI".toList, 6), ("VII".toList, 7), ("VIII".toList, 8),
   ("IX".toList, 9), ("X".toList, 10)]

def lookupAssoc (k : List Char) : List (List Char × Int) → Option Int
  | [] => none
  | (k2, v) :: rest => if k = k2 then some v else lookupAssoc k rest

/-- `_convert_to_number`: digits, word numbers, roman numerals I..X, then a
single letter mapped to its alphabet position. -/
def convertToNumber (tok : List Char) : Option Int :=
  if tok = [] then none
  else if tok.all isDigitC then some (digitsToInt tok)
  else
    match lookupAssoc (pyLower tok) WORD_TO_NUM with
    | some n => some n
    | none =>
      match lookupAssoc (tok.map toUpperC) ROMAN_TO_NUM with
      | some n => some n
      | none =>
        match tok with
        | [c] =>
          if isAlphaC c then some (((toUpperC c).toNat : Int) - 64) else none
        | _ => none

/-! ## Page markers (`_is_page_marker`, `extract_page_number`) -/

/-- `^PAGE\s+\d+$` on the stripped line (case sensitive, no trailing space). -/
def isPageDigitsMarker (s : List Char) : Bool :=
  match stripKeywordCS "PAGE".toList s with
  | none => false
  | some r =>
    match ws1 r with
    | none => false
    | some r2 => r2 ≠ [] && r2.all isDigitC

/-- `_is_page_marker`: `^(?:PAGE\s+\d+|={10,})$` on the stripped line. -/
def isPageMarker (line : List Char) : Bool :=
  let s := pyStrip line
  isPageDigitsMarker s || (10 ≤ s.length && s.all (fun c => c = '='))

/-- `extract_page_number`: `^PAGE\s+(\d+)\s*$` on the stripped line. -/
def extractPageNumber (line : List Char) : Option Int :=
  let s := pyStrip line
  match stripKeywordCS "PAGE".toList s with
  | none => none
  | some r =>
    match ws1 r with
    | none => none
    | some r2 =>
      let ds := r2.takeWhile isDigitC
      if ds = [] then none
      else if (r2.dropWhile isDigitC).all isPySpace then some (digitsToInt ds)
      else none

/-- `line.startswith('=')`. -/
def startsWithEq : List Char → Bool
  | [] => false
  | c :: _ => c = '='

/-! ## Title extractor (`SectionDetector._extract_title_from_lines`) -/

/-- One iteration per unit of fuel, mirroring
`for offset in range(1, look_ahead_lines + 1)`.  `found` is
`found_title_start`, `acc` is `title_parts`. -/
def extractGo (lines : List (List Char)) (i : Nat) (fuel : Nat) (found : Bool)
    (acc : List (List Char)) : List (List Char) :=
  match fuel with
  | 0 => acc
  | Nat.succ f =>
    if lines.length ≤ i then acc
    else
      let line := pyStrip (lines.getD i [])
      if line = [] then
        if found then acc else extractGo lines (i + 1) f found acc
      else if isPageMarker line || startsWithEq line then
        if found then acc else extractGo lines (i + 1) f found acc
      else if matchesAnyChapterPattern line then acc
      else if 1 < line.length ∧ line.length < 150 then
        let acc2 := acc ++ [line]
        if pyIsUpper line ∧ 10 < line.length then
          if lines.length ≤ i + 1 then extractGo lines (i + 1) f true acc2
          else
            let nl := pyStrip (lines.getD (i + 1) [])
            if nl = [] || !(pyIsUpper nl && nl.length < 100) then acc2
            else extractGo lines (i + 1) f true acc2
        else extractGo lines (i + 1) f true acc2
      else if found then acc
      else extractGo lines (i + 1) f found acc

def extractTitleFromLines (lines : List (List Char)) (start_idx : Nat)
    (look : Nat) : List Char :=
  joinSpace (extractGo lines (start_idx + 1) look false [])

/-! ## Filename generation (`_generate_filename`, `_sanitize_for_filename`) -/

def isSepChar (c : Char) : Bool := isPySpace c || c = '-' || c = '&'

/-- `re.sub(r'[\s\-&]+', '_', name)`: the flag records whether the previous
character belonged to a separator run already replaced. -/
def replaceSepsGo : Bool → List Char → List Char
  | _, [] => []
  | prevSep, c :: cs =>
    if isSepChar c then
      if prevSep then replaceSepsGo true cs else '_' :: replaceSepsGo true cs
    else c :: replaceSepsGo false cs

def replaceSeps (l : List Char) : List Char := replaceSepsGo false l

/-- `re.sub(r'_+', '_', name)`. -/
def collapseUndGo : Bool → List Char → List Char
  | _, [] => []
  | prev, c :: cs =>
    if c = '_' then
      if prev then collapseUndGo true cs else '_' :: collapseUndGo true cs
    else c :: collapseUndGo false cs

def collapseUnd (l : List Char) : List Char := collapseUndGo false l

/-- `name.strip('_')`. -/
def stripUnd (l : List Char) : List Char :=
  ((l.dropWhile (fun c => c = '_')).reverse.dropWhile (fun c => c = '_')).reverse

def keepFilenameChar (c : Char) : Bool := isLowerAlpha c || isDigitC c || c = '_'

/-- `SectionDetector._sanitize_for_filename`. -/
def sanitizeForFilename (name : List Char) : List Char :=
  if name = [] then []
  else
    (stripUnd (collapseUnd ((replaceSeps (pyLower name)).filter keepFilenameChar))).take 50

def joinUnd : List (List Char) → List Char
  | [] => []
  | [w] => w
  | w :: x :: ws => w ++ '_' :: joinUnd (x :: ws)

/-- `if number:` — Python truthiness of an `Optional[int]`. -/
def numTruthy : Option Int → Bool
  | some n => n ≠ 0
  | none => false

/-- `SectionDetector._generate_filename`. -/
def generateFilename (st : SectionType) (number : Option Int)
    (title : List Char) : List Char :=
  let safe_title := if title = [] then [] else sanitizeForFilename title
  let titleParts := if safe_title = [] then [] else [safe_title]
  let base : List (List Char) :=
    match st with
    | SectionType.chapter =>
      let p0 := match number with
        | some n => if n ≠ 0 then fmt02 n else "00".toList
        | none => "00".toList
      let numPart := match number with
        | some n => if n ≠ 0 then [intStr n] else []
        | none => []
      [p0, "chapter".toList] ++ numPart
    | SectionType.part =>
      [match number with
       | some n => if n ≠ 0 then "part_".toList ++ fmt02 n else "part".toList
       | none => "part".toList]
    | SectionType.appendix =>
      [match number with
       | some n => if n ≠ 0 then "appendix_".toList ++ intStr n else "appendix".toList
       | none => "appendix".toList]
    | SectionType.sect =>
      [match number with
       | some n => if n ≠ 0 then "section_".toList ++ fmt02 n else "section".toList
       | none => "section".toList]
    | SectionType.introduction => ["introduction".toList]
    | SectionType.glossary => ["glossary".toList]
    | SectionType.index => ["index".toList]
  joinUnd (base ++ titleParts) ++ ".txt".toList

/-! ## Page-tracking scanner (`SectionDetector.detect_sections`) -/

/-- `text.split('\n')`. -/
def splitNl : List Char → List (List Char)
  | [] => [[]]
  | c :: cs =>
    if c = '\n' then [] :: splitNl cs
    else
      match splitNl cs with
      | w :: ws => (c :: w) :: ws
      | [] => [[c]]

/-- First matching pattern for a stripped, nonempty line: the chapter
patterns in their fixed order, then (in strict mode) the standalone markers.
Returns the section type, the ordinal token and the inline title. -/
def matchLine (strict : Bool) (l : List Char) :
    Option (SectionType × Option (List Char) × List Char) :=
  match matchChapterDigits l with
  | some (tok, ti) => some (SectionType.chapter, some tok, ti)
  | none =>
  match matchChapterWord l with
  | some (tok, ti) => some (SectionType.chapter, some tok, ti)
  | none =>
  match matchPart l with
  | some (tok, ti) => some (SectionType.part, some tok, ti)
  | none =>
  match matchSectionNum l with
  | some (tok, ti) => some (SectionType.sect, some tok, ti)
  | none =>
  match matchAppendix l with
  | some (tok, ti) => some (SectionType.appendix, some tok, ti)
  | none =>
    if strict then
      if matchIntroduction l then some (SectionType.introduction, none, [])
      else if matchGlossary l then some (SectionType.glossary, none, [])
      else if matchIndexMarker l then some (SectionType.index, none, [])
      else none
    else none

/-- The body of the scan loop for one non-page-marker line: the candidate it
produces, if any. -/
def detectAt (lines : List (List Char)) (strict : Bool) (look : Nat) (i : Nat)
    (cur : Int) : Option Section :=
  let stripped := pyStrip (lines.getD i [])
  if stripped = [] then none
  else
    match matchLine strict stripped with
    | none => none
    | some (st, tok, inline) =>
      let number := match tok with
        | some tk => convertToNumber tk
        | none => none
      let title := if inline = [] then extractTitleFromLines lines i look else inline
      let filename := generateFilename st number title
      some ⟨st, number, title, (i : Int), -1, cur, -1, filename, []⟩

/-- The forward scan: track `current_page`, collect candidates in order.
Returns the candidate list and the final `current_page`.  The fuel argument
is initialised to the number of lines, so the `lines.length ≤ i` test is the
one that actually terminates the loop. -/
def detectGo (lines : List (List Char)) (strict : Bool) (look : Nat) :
    Nat → Nat → Int → List Section → List Section × Int
  | 0, _, cur, acc => (acc, cur)
  | Nat.succ fuel, i, cur, acc =>
    if lines.length ≤ i then (acc, cur)
    else
      match extractPageNumber (lines.getD i []) with
      | some p =>
        if p ≠ 0 then detectGo lines strict look fuel (i + 1) p acc
        else
          match detectAt lines strict look i cur with
          | some s => detectGo lines strict look fuel (i + 1) cur (acc ++ [s])
          | none => detectGo lines strict look fuel (i + 1) cur acc
      | none =>
        match detectAt lines strict look i cur with
        | some s => detectGo lines strict look fuel (i + 1) cur (acc ++ [s])
        | none => detectGo lines strict look fuel (i + 1) cur acc

/-- `_set_section_boundaries`. -/
def setBounds : List Section → Int → Int → List Section
  | [], _, _ => []
  | [s], lastLine, lastPage => [{ s with end_line := lastLine, end_page := lastPage }]
  | s :: t :: rest, lastLine, lastPage =>
    { s with end_line := t.start_line - 1, end_page := t.start_page - 1 }
      :: setBounds (t :: rest) lastLine lastPage

def detectScan (text : List Char) (strict : Bool) (look : Nat) :
    List Section × Int :=
  detectGo (splitNl text) strict look (splitNl text).length 0 1 []

/-- `SectionDetector.detect_sections`. -/
def detectSections (text : List Char) (strict : Bool) (look : Nat) : List Section :=
  let p := detectScan text strict look
  setBounds p.1 (((splitNl text).length : Int) - 1) p.2

/-- The `current_page` value at the end of the scan (passed to
`_set_section_boundaries` as `last_page`). -/
def lastTrackedPage (text : List Char) (strict : Bool) (look : Nat) : Int :=
  (detectScan text strict look).2

/-! ## TOC-page filter (`DocumentSplitter._filter_toc_pages`) -/

def TOC_PAGE_SECTION_THRESHOLD : Nat := 3

/-- Number of distinct resolved ordinals among candidates on page `p`. -/
def distinctOrdinalsOnPage (secs : List Section) (p : Int) : Nat :=
  (((secs.filter (fun s => decide (s.start_page = p))).filterMap
      (fun s => s.number)).dedup).length

def isTocPage (secs : List Section) (p : Int) : Bool :=
  decide (TOC_PAGE_SECTION_THRESHOLD ≤ distinctOrdinalsOnPage secs p)

/-- `_filter_toc_pages`. -/
def filterTocPages (secs : List Section) : List Section :=
  secs.filter (fun s => !(isTocPage secs s.start_page))

/-! ## Reference/noise filter (`DocumentSplitter._filter_reference_sections`) -/

def REFERENCE_INDICATOR_WORDS : List (List Char) :=
  ["includes", "provides", "contains", "describes", "explains", "covers",
   "discusses", "presents", "features", "offers", "summarizes", "details",
   "outlines", "introduces", "explores"].map String.toList

/-- `word.rstrip('.,;:')`. -/
def rstripRef (w : List Char) : List Char :=
  (w.reverse.dropWhile (fun c => c = '.' || c = ',' || c = ';' || c = ':')).reverse

/-- A narrative verb among the first six lowercased title words. -/
def hasReferenceWord (title : List Char) : Bool :=
  ((pyWords (pyLower title)).take 6).any
    (fun w => REFERENCE_INDICATOR_WORDS.contains (rstripRef w))

def MAX_TITLE_WORDS : Nat := 8

/-- The title-truncation step of `_filter_reference_sections` (lines
526-534): keep the first `MAX_TITLE_WORDS` words and regenerate the
filename from the truncated title. -/
def truncateTitle (s : Section) : Section :=
  if MAX_TITLE_WORDS < (pyWords (pyLower s.title)).length then
    let newTitle := joinSpace ((pyWords s.title).take MAX_TITLE_WORDS)
    { s with title := newTitle,
             filename := generateFilename s.section_type s.number newTitle }
  else s

def refFilterStep (s : Section) : Option Section :=
  if hasReferenceWord s.title then none else some (truncateTitle s)

/-- `_filter_reference_sections`. -/
def filterReferenceSections (secs : List Section) : List Section :=
  secs.filterMap refFilterStep

/-! ## Deduplicator/merger (`_deduplicate_sections`,
`_merge_or_deduplicate_occurrences`) -/

def NON_CONTIGUOUS_PAGE_THRESHOLD : Int := 30

def contSuffix : List Char := " (continued)".toList

/-- Some consecutive `start_page` gap exceeds the threshold. -/
def anyGapExceeds : List Section → Bool
  | a :: b :: rest =>
    decide (NON_CONTIGUOUS_PAGE_THRESHOLD < b.start_page - a.start_page) ||
      anyGapExceeds (b :: rest)
  | _ => false

/-- Python `max(occurrences, key=...)`: the first element attaining the
maximum (a later element replaces the current one only on a strict
increase). -/
def firstMaxBy (f : Section → Int) (a : Section) (l : List Section) : Section :=
  l.foldl (fun best x => if f best < f x then x else best) a

def mkContinuation (primary : Section) (r : Section) : SubSec :=
  { section_type := primary.section_type
    number := primary.number
    title := primary.title ++ contSuffix
    start_line := r.start_line
    end_line := r.end_line
    start_page := r.start_page
    end_page := r.end_page
    filename := [] }

/-- `_merge_or_deduplicate_occurrences` (input already sorted by
`start_page`). -/
def mergeOrDedupOccurrences (occurrences : List Section) : List Section :=
  if occurrences.length < 2 then occurrences
  else if anyGapExceeds occurrences then
    match occurrences with
    | [] => []
    | primary :: secondaries =>
      let additional := secondaries.filter
        (fun s => decide (NON_CONTIGUOUS_PAGE_THRESHOLD < s.start_page - primary.start_page))
      [{ primary with
           subsections := primary.subsections ++ additional.map (mkContinuation primary) }]
  else
    match occurrences with
    | [] => []
    | a :: rest => [firstMaxBy (fun s => s.end_line - s.start_line) a rest]

/-- Ordering by `start_page`, the key of the per-group sort.  A stable sort
is a stable sort: Python's `list.sort` is modelled by stable insertion
sort, which agrees with it elementwise. -/
def pageLe (a b : Section) : Prop := a.start_page ≤ b.start_page

instance : DecidableRel pageLe :=
  fun a b => inferInstanceAs (Decidable (a.start_page ≤ b.start_page))

instance : IsTotal Section pageLe := ⟨fun a b => Int.le_total _ _⟩

instance : IsTrans Section pageLe := ⟨fun _ _ _ => Int.le_trans⟩

/-- Ordering by `start_line`, the key of the final sort. -/
def lineLe (a b : Section) : Prop := a.start_line ≤ b.start_line

instance : DecidableRel lineLe :=
  fun a b => inferInstanceAs (Decidable (a.start_line ≤ b.start_line))

instance : IsTotal Section lineLe := ⟨fun a b => Int.le_total _ _⟩

instance : IsTrans Section lineLe := ⟨fun _ _ _ => Int.le_trans⟩

def sortByPage (l : List Section) : List Section := l.insertionSort pageLe

def sortByLine (l : List Section) : List Section := l.insertionSort lineLe

/-- Resolution of one filename group: singleton groups pass through,
larger ones are sorted by `start_page` and merged or deduplicated. -/
def dedupGroup (secs : List Section) (k : List Char) : List Section :=
  if (secs.filter (fun s => decide (s.filename = k))).length = 1 then
    secs.filter (fun s => decide (s.filename = k))
  else
    mergeOrDedupOccurrences (sortByPage (secs.filter (fun s => decide (s.filename = k))))

/-- Grouping by filename and per-group resolution (`_deduplicate_sections`
before the final sort): dict keys in first-occurrence order, each group in
document order. -/
def dedupCore (secs : List Section) : List Section :=
  ((secs.map (fun s => s.filename)).dedup).flatMap (dedupGroup secs)

/-- Boundary recalculation after deduplication: every section except the
last is clipped to its successor. -/
def resolveBounds : List Section → List Section
  | [] => []
  | [s] => [s]
  | s :: t :: rest =>
    { s with end_line := t.start_line - 1, end_page := t.start_page - 1 }
      :: resolveBounds (t :: rest)

/-- `DocumentSplitter._deduplicate_sections`. -/
def dedupSections (secs : List Section) : List Section :=
  resolveBounds (sortByLine (dedupCore secs))

/-! ## The full engine pipeline as run by `split_pdf` -/

def pipelineSections (text : List Char) : List Section :=
  dedupSections (filterReferenceSections (filterTocPages (detectSections text false 15)))

/-- The front-matter span exposed by `split_pdf`: lines `[0, first.start_line - 1]`
when the first section does not start at line 0. -/
def frontMatterSpan (out : List Section) : List (Int × Int) :=
  match out with
  | [] => []
  | s :: _ => if 0 < s.start_line then [(0, s.start_line - 1)] else []

/-- Front-matter span plus the primary `[start_line, end_line]` spans. -/
def primaryRanges (out : List Section) : List (Int × Int) :=
  frontMatterSpan out ++ out.map (fun s => (s.start_line, s.end_line))

/-- All spans the coverage claim speaks about: front matter, primary spans
and continuation ranges. -/
def allRanges (out : List Section) : List (Int × Int) :=
  primaryRanges out ++
    out.flatMap (fun s => s.subsections.map (fun c => (c.start_line, c.end_line)))

/-- `rs` covers `[0, last]` exactly: every point of the interval lies in some
range, no point outside it does, and the ranges are pairwise disjoint. -/
def coversExactly (rs : List (Int × Int)) (last : Int) : Prop :=
  (∀ x : Int, (0 ≤ x ∧ x ≤ last) ↔ ∃ r ∈ rs, r.1 ≤ x ∧ x ≤ r.2) ∧
    rs.Pairwise (fun r t => ∀ x : Int, ¬((r.1 ≤ x ∧ x ≤ r.2) ∧ (t.1 ≤ x ∧ x ≤ t.2)))

/-! ## Lemmas about Python word splitting -/

theorem wordsGo_nil (acc : List Char) :
    wordsGo [] acc = if acc = [] then [] else [acc.reverse] := rfl

theorem wordsGo_cons (c : Char) (cs acc : List Char) :
    wordsGo (c :: cs) acc =
      if isPySpace c then
        if acc = [] then wordsGo cs [] else acc.reverse :: wordsGo cs []
      else wordsGo cs (c :: acc) := rfl

theorem wordsGo_wf (cs : List Char) :
    ∀ acc, (∀ c ∈ acc, isPySpace c = false) →
      ∀ w ∈ wordsGo cs acc, w ≠ [] ∧ ∀ c ∈ w, isPySpace c = false := by
  induction cs with
  | nil =>
    intro acc hacc w hw
    rw [wordsGo_nil] at hw
    split at hw
    · simp at hw
    · rename_i hne
      simp only [List.mem_singleton] at hw
      subst hw
      refine ⟨by simpa using hne, ?_⟩
      intro c hc
      exact hacc c (List.mem_reverse.mp hc)
  | cons c cs ih =>
    intro acc hacc w hw
    rw [wordsGo_cons] at hw
    by_cases hsp : isPySpace c
    · simp only [hsp, if_true] at hw
      split at hw
      · exact ih [] (by simp) w hw
      · rename_i hne
        rcases List.mem_cons.mp hw with h | h
        · subst h
          refine ⟨by simpa using hne, ?_⟩
          intro d hd
          exact hacc d (List.mem_reverse.mp hd)
        · exact ih [] (by simp) w h
    · simp only [hsp, Bool.false_eq_true, if_false] at hw
      refine ih (c :: acc) ?_ w hw
      intro d hd
      rcases List.mem_cons.mp hd with h | h
      · subst h; simpa using hsp
      · exact hacc d h

theorem wordsGo_append (w : List Char) (hw : ∀ c ∈ w, isPySpace c = false) :
    ∀ (l acc : List Char), wordsGo (w ++ l) acc = wordsGo l (w.reverse ++ acc) := by
  induction w with
  | nil => intro l acc; simp
  | cons c w ih =>
    intro l acc
    have hc : isPySpace c = false := hw c (by simp)
    have hw2 : ∀ d ∈ w, isPySpace d = false := fun d hd => hw d (by simp [hd])
    have h1 : (c :: w) ++ l = c :: (w ++ l) := rfl
    rw [h1, wordsGo_cons, hc]
    simp only [Bool.false_eq_true, if_false]
    rw [ih hw2 l (c :: acc)]
    simp [List.append_assoc]

theorem pyWords_joinSpace (ws : List (List Char))
    (h : ∀ w ∈ ws, w ≠ [] ∧ ∀ c ∈ w, isPySpace c = false) :
    pyWords (joinSpace ws) = ws := by
  induction ws with
  | nil => rfl
  | cons w rest ih =>
    have hw := h w (by simp)
    have hrev : w.reverse ≠ [] := by simpa using hw.1
    cases rest with
    | nil =>
      show pyWords (joinSpace [w]) = [w]
      have hjs : joinSpace [w] = w ++ [] := by simp [joinSpace]
      rw [hjs]
      unfold pyWords
      rw [wordsGo_append w hw.2, wordsGo_nil]
      rw [if_neg (by simpa using hrev)]
      simp
    | cons x rest2 =>
      show pyWords (joinSpace (w :: x :: rest2)) = w :: x :: rest2
      have hjs : joinSpace (w :: x :: rest2) = w ++ ' ' :: joinSpace (x :: rest2) := rfl
      rw [hjs]
      unfold pyWords
      rw [wordsGo_append w hw.2, List.append_nil, wordsGo_cons]
      rw [if_pos (by decide), if_neg hrev, List.reverse_reverse]
      have := ih (fun u hu => h u (by simp [hu]))
      unfold pyWords at this
      rw [this]

theorem wordsGo_map (f : Char → Char) (hf : ∀ c, isPySpace (f c) = isPySpace c)
    (cs : List Char) :
    ∀ acc, wordsGo (cs.map f) (acc.map f) = (wordsGo cs acc).map (List.map f) := by
  induction cs with
  | nil =>
    intro acc
    simp only [List.map_nil, wordsGo_nil]
    by_cases hacc : acc = []
    · subst hacc; simp
    · rw [if_neg (by simpa using hacc), if_neg hacc]
      simp
  | cons c cs ih =>
    intro acc
    simp only [List.map_cons, wordsGo_cons, hf c]
    by_cases hsp : isPySpace c
    · simp only [hsp, if_true]
      by_cases hacc : acc = []
      · subst hacc
        simp only [List.map_nil, if_true]
        have ih0 := ih []
        simpa using ih0
      · rw [if_neg (by simpa using hacc), if_neg hacc]
        have ih0 := ih []
        simp only [List.map_nil] at ih0
        rw [ih0]
        simp
    · simp only [hsp, Bool.false_eq_true, if_false]
      have := ih (c :: acc)
      simpa using this

theorem pyWords_map (f : Char → Char) (hf : ∀ c, isPySpace (f c) = isPySpace c)
    (cs : List Char) : pyWords (cs.map f) = (pyWords cs).map (List.map f) := by
  have := wordsGo_map f hf cs []
  simpa [pyWords] using this

theorem joinSpace_map (f : Char → Char) (hf : f ' ' = ' ') :
    ∀ ws : List (List Char), joinSpace (ws.map (List.map f)) = (joinSpace ws).map f := by
  intro ws
  induction ws with
  | nil => rfl
  | cons w rest ih =>
    cases rest with
    | nil => rfl
    | cons x rest2 =>
      show (w.map f) ++ ' ' :: joinSpace ((x :: rest2).map (List.map f)) = _
      rw [ih]
      simp [joinSpace, hf]

theorem isPySpace_toLowerC (c : Char) : isPySpace (toLowerC c) = isPySpace c := by
  unfold toLowerC
  cases hf : LETTER_PAIRS.find? (fun p => decide (p.1 = c)) with
  | none => rfl
  | some p =>
    have hmem : p ∈ LETTER_PAIRS := List.mem_of_find?_eq_some hf
    have hpc : p.1 = c := by
      have := List.find?_some hf
      simpa using this
    have hall : ∀ q ∈ LETTER_PAIRS, isPySpace q.2 = isPySpace q.1 := by decide
    rw [← hpc]
    exact hall p hmem

theorem toLowerC_space : toLowerC ' ' = ' ' := by decide

/-- Lowercasing commutes with word splitting. -/
theorem pyWords_pyLower (cs : List Char) :
    pyWords (pyLower cs) = (pyWords cs).map (List.map toLowerC) :=
  pyWords_map toLowerC isPySpace_toLowerC cs

/-- The words of the joined first `n` words of `t`, lowered, are the first
`n` lowered words of `t`. -/
theorem pyWords_lower_take (t : List Char) (n : Nat) :
    pyWords (pyLower (joinSpace ((pyWords t).take n))) =
      (pyWords (pyLower t)).take n := by
  have h1 : pyLower (joinSpace ((pyWords t).take n)) =
      joinSpace (((pyWords t).take n).map (List.map toLowerC)) := by
    unfold pyLower
    rw [joinSpace_map toLowerC toLowerC_space]
  rw [h1]
  have h2 : ((pyWords t).take n).map (List.map toLowerC) =
      (pyWords (pyLower t)).take n := by
    rw [pyWords_pyLower, List.map_take]
  rw [h2]
  apply pyWords_joinSpace
  intro w hw
  have hmem : w ∈ pyWords (pyLower t) := List.mem_of_mem_take hw
  exact wordsGo_wf (pyLower t) [] (by simp) w hmem

/-- The words of the joined first `n` words of `t` are the first `n` words. -/
theorem pyWords_take (t : List Char) (n : Nat) :
    pyWords (joinSpace ((pyWords t).take n)) = (pyWords t).take n := by
  apply pyWords_joinSpace
  intro w hw
  exact wordsGo_wf t [] (by simp) w (List.mem_of_mem_take hw)

theorem pyWords_lower_length (t : List Char) :
    (pyWords (pyLower t)).length = (pyWords t).length := by
  rw [pyWords_pyLower, List.length_map]

/-! ## Lemmas about boundary recalculation and the final sort -/

def adjRel (a b : Section) : Prop :=
  a.end_line = b.start_line - 1 ∧ a.end_page = b.start_page - 1

theorem resolveBounds_cons_cons (s t : Section) (rest : List Section) :
    resolveBounds (s :: t :: rest) =
      { s with end_line := t.start_line - 1, end_page := t.start_page - 1 }
        :: resolveBounds (t :: rest) := rfl

theorem resolveBounds_map_start_line (l : List Section) :
    (resolveBounds l).map Section.start_line = l.map Section.start_line := by
  induction l with
  | nil => rfl
  | cons s rest ih =>
    cases rest with
    | nil => rfl
    | cons t rest2 =>
      rw [resolveBounds_cons_cons]
      simpa using ih

theorem resolveBounds_map_start_page (l : List Section) :
    (resolveBounds l).map Section.start_page = l.map Section.start_page := by
  induction l with
  | nil => rfl
  | cons s rest ih =>
    cases rest with
    | nil => rfl
    | cons t rest2 =>
      rw [resolveBounds_cons_cons]
      simpa using ih

theorem resolveBounds_head_start (t : Section) (rest : List Section) :
    ∃ b, (resolveBounds (t :: rest)).head? = some b ∧
      b.start_line = t.start_line ∧ b.start_page = t.start_page := by
  cases rest with
  | nil => exact ⟨t, rfl, rfl, rfl⟩
  | cons u rest2 =>
    exact ⟨{ t with end_line := u.start_line - 1, end_page := u.start_page - 1 },
      rfl, rfl, rfl⟩

theorem resolveBounds_chain (l : List Section) :
    List.Chain' adjRel (resolveBounds l) := by
  induction l with
  | nil => exact List.chain'_nil
  | cons s rest ih =>
    cases rest with
    | nil => simp [resolveBounds]
    | cons t rest2 =>
      rw [resolveBounds_cons_cons]
      rw [List.chain'_cons']
      refine ⟨?_, ih⟩
      intro b hb
      obtain ⟨b2, hb2, hline, hpage⟩ := resolveBounds_head_start t rest2
      rw [hb2] at hb
      simp only [Option.mem_def, Option.some.injEq] at hb
      subst hb
      exact ⟨by simp [hline], by simp [hpage]⟩

theorem sortByLine_pairwise (l : List Section) :
    (sortByLine l).Pairwise (fun a b => a.start_line ≤ b.start_line) := by
  have hs : (List.insertionSort lineLe l).Sorted lineLe :=
    List.sorted_insertionSort lineLe l
  exact hs.imp (fun h => h)

theorem dedupSections_pairwise_le (secs : List Section) :
    (dedupSections secs).Pairwise (fun a b => a.start_line ≤ b.start_line) := by
  have hmap := resolveBounds_map_start_line (sortByLine (dedupCore secs))
  have hsorted := sortByLine_pairwise (dedupCore secs)
  have h1 : List.Pairwise (fun x y : Int => x ≤ y)
      ((sortByLine (dedupCore secs)).map Section.start_line) :=
    List.pairwise_map.mpr hsorted
  rw [← hmap] at h1
  exact List.pairwise_map.mp h1

/-- Claim C1: after deduplication and boundary resolution the Section list is
sorted ascending by `start_line`, and every section but the last ends exactly
one line before its successor starts and one page before its successor's page. -/
theorem claim_C1 (secs : List Section) :
    (dedupSections secs).Pairwise (fun a b => a.start_line ≤ b.start_line) ∧
    ∀ i (h : i + 1 < (dedupSections secs).length),
      ((dedupSections secs).get ⟨i, Nat.lt_of_succ_lt h⟩).end_line
        = ((dedupSections secs).get ⟨i + 1, h⟩).start_line - 1 ∧
      ((dedupSections secs).get ⟨i, Nat.lt_of_succ_lt h⟩).end_page
        = ((dedupSections secs).get ⟨i + 1, h⟩).start_page - 1 := by
  refine ⟨dedupSections_pairwise_le secs, ?_⟩
  intro i h
  have hchain : List.Chain' adjRel (dedupSections secs) :=
    resolveBounds_chain (sortByLine (dedupCore secs))
  have hlt : i < (dedupSections secs).length - 1 := by omega
  exact List.chain'_iff_get.mp hchain i hlt

def c1secA : Section :=
  ⟨SectionType.chapter, some 1, "alpha".toList, 0, 3, 1, 1, "a".toList, []⟩

def c1secB : Section :=
  ⟨SectionType.chapter, some 2, "beta".toList, 4, 9, 2, 3, "b".toList, []⟩

theorem claim_C1_witness :
    ((dedupSections [c1secA, c1secB]).get ⟨0, by decide⟩).end_line
      = ((dedupSections [c1secA, c1secB]).get ⟨1, by decide⟩).start_line - 1 ∧
    ((dedupSections [c1secA, c1secB]).get ⟨0, by decide⟩).end_page
      = ((dedupSections [c1secA, c1secB]).get ⟨1, by decide⟩).start_page - 1 :=
  (claim_C1 [c1secA, c1secB]).2 0 (by decide)

/-! ## Claim C5: TOC-page suppression -/

def tocDemoText : List Char := "CHAPTER 1\nCHAPTER 2\nCHAPTER 3\nCHAPTER 4".toList

/-- Claim C5: on any page whose count of distinct resolved ordinals reaches
the threshold (3), every candidate starting on that page is discarded by the
TOC filter (including ordinal-less ones, since the filter drops by page);
and the synthetic document consisting of heading lines for ordinals 1-4 on a
single page yields zero Sections. -/
theorem claim_C5 :
    (∀ (secs : List Section) (p : Int),
        TOC_PAGE_SECTION_THRESHOLD ≤ distinctOrdinalsOnPage secs p →
          ∀ s ∈ filterTocPages secs, s.start_page ≠ p) ∧
      pipelineSections tocDemoText = [] := by
  constructor
  · intro secs p hp s hs heq
    have hmem := List.mem_filter.mp hs
    have h2 := hmem.2
    rw [heq] at h2
    simp only [isTocPage, Bool.not_eq_true', decide_eq_false_iff_not] at h2
    exact h2 hp
  · decide

def c5secA : Section :=
  ⟨SectionType.chapter, some 1, [], 0, 9, 1, 1, "a".toList, []⟩

def c5secB : Section :=
  ⟨SectionType.chapter, some 2, [], 1, 9, 1, 1, "b".toList, []⟩

def c5secC : Section :=
  ⟨SectionType.chapter, some 3, [], 2, 9, 1, 1, "c".toList, []⟩

def c5secD : Section :=
  ⟨SectionType.chapter, some 4, [], 5, 9, 2, 2, "d".toList, []⟩

theorem claim_C5_witness : c5secD.start_page ≠ 1 :=
  claim_C5.1 [c5secA, c5secB, c5secC, c5secD] 1 (by decide) c5secD (by decide)

/-! ## Claim C7: reference suppression -/

theorem hasReferenceWord_truncate (s : Section) :
    hasReferenceWord (truncateTitle s).title = hasReferenceWord s.title := by
  unfold truncateTitle
  split
  · show hasReferenceWord (joinSpace ((pyWords s.title).take MAX_TITLE_WORDS)) = _
    unfold hasReferenceWord
    rw [pyWords_lower_take]
    rw [List.take_take]
    norm_num [MAX_TITLE_WORDS]
  · rfl

def refDemoText : List Char := "Chapter 4: Skills includes several subsystems".toList

/-- Claim C7: no candidate whose title carries a narrative verb among its
first six (lowercased, punctuation-stripped) words survives the reference
filter; and the document consisting of the line
`Chapter 4: Skills includes several subsystems` produces no Section at all. -/
theorem claim_C7 :
    (∀ (secs : List Section), ∀ t ∈ filterReferenceSections secs,
        hasReferenceWord t.title = false) ∧
      pipelineSections refDemoText = [] := by
  constructor
  · intro secs t ht
    obtain ⟨s, _hs, hstep⟩ := List.mem_filterMap.mp ht
    unfold refFilterStep at hstep
    by_cases h : hasReferenceWord s.title
    · rw [if_pos h] at hstep
      exact absurd hstep (by simp)
    · rw [if_neg h] at hstep
      have ht' : t = truncateTitle s := by
        simpa using hstep.symm
      rw [ht', hasReferenceWord_truncate]
      simpa using h
  · decide

def c7sec : Section :=
  ⟨SectionType.chapter, some 9, "alpha beta".toList, 0, 9, 1, 1, "a".toList, []⟩

theorem claim_C7_witness : hasReferenceWord c7sec.title = false :=
  claim_C7.1 [c7sec] c7sec (by decide)

/-! ## Claim C8: title truncation -/

theorem truncateTitle_eq_of_le (s : Section)
    (h : (pyWords (pyLower s.title)).length ≤ MAX_TITLE_WORDS) :
    truncateTitle s = s := by
  unfold truncateTitle
  rw [if_neg (by omega)]

theorem truncateTitle_of_gt (s : Section)
    (h : MAX_TITLE_WORDS < (pyWords (pyLower s.title)).length) :
    (truncateTitle s).title = joinSpace ((pyWords s.title).take MAX_TITLE_WORDS) ∧
      (truncateTitle s).filename = generateFilename s.section_type s.number
        (joinSpace ((pyWords s.title).take MAX_TITLE_WORDS)) := by
  unfold truncateTitle
  rw [if_pos h]
  exact ⟨rfl, rfl⟩

theorem truncateTitle_wordCount (s : Section)
    (h : MAX_TITLE_WORDS < (pyWords (pyLower s.title)).length) :
    (pyWords (pyLower (truncateTitle s).title)).length = MAX_TITLE_WORDS := by
  rw [(truncateTitle_of_gt s h).1, pyWords_lower_take, List.length_take]
  omega

theorem truncateTitle_idem (s : Section) :
    truncateTitle (truncateTitle s) = truncateTitle s := by
  by_cases h : MAX_TITLE_WORDS < (pyWords (pyLower s.title)).length
  · exact truncateTitle_eq_of_le _ (by rw [truncateTitle_wordCount s h])
  · have hle : (pyWords (pyLower s.title)).length ≤ MAX_TITLE_WORDS := by omega
    rw [truncateTitle_eq_of_le s hle, truncateTitle_eq_of_le s hle]

/-- Claim C8: truncation is the identity on titles of at most 8 words; on a
longer title it keeps exactly the first 8 words and regenerates the filename
from the truncated title; and truncation is idempotent. -/
theorem claim_C8 (s : Section) :
    ((pyWords (pyLower s.title)).length ≤ MAX_TITLE_WORDS → truncateTitle s = s) ∧
    (MAX_TITLE_WORDS < (pyWords (pyLower s.title)).length →
      (truncateTitle s).title = joinSpace ((pyWords s.title).take MAX_TITLE_WORDS) ∧
      (pyWords ((truncateTitle s).title)).length = MAX_TITLE_WORDS ∧
      (truncateTitle s).filename = generateFilename s.section_type s.number
        ((truncateTitle s).title)) ∧
    truncateTitle (truncateTitle s) = truncateTitle s := by
  refine ⟨truncateTitle_eq_of_le s, ?_, truncateTitle_idem s⟩
  intro h
  obtain ⟨h1, h2⟩ := truncateTitle_of_gt s h
  refine ⟨h1, ?_, ?_⟩
  · rw [h1, pyWords_take, List.length_take]
    have := pyWords_lower_length s.title
    omega
  · rw [h1]
    exact h2

def c8long : Section :=
  ⟨SectionType.chapter, some 3,
    "a b c d e f g h i j k l m n o p q r s t".toList, 0, 9, 1, 1, "x".toList, []⟩

def c8short : Section :=
  ⟨SectionType.chapter, some 3, "alpha beta gamma".toList, 0, 9, 1, 1, "x".toList, []⟩

theorem claim_C8_witness :
    truncateTitle c8short = c8short ∧
      (truncateTitle c8long).title =
        joinSpace ((pyWords c8long.title).take MAX_TITLE_WORDS) :=
  ⟨(claim_C8 c8short).1 (by decide), ((claim_C8 c8long).2.1 (by decide)).1⟩

/-! ## Claim C6: near-duplicate suppression keeps the largest occurrence -/

theorem firstMaxBy_cons (f : Section → Int) (a x : Section) (l : List Section) :
    firstMaxBy f a (x :: l) = firstMaxBy f (if f a < f x then x else a) l := rfl

theorem firstMaxBy_mem (f : Section → Int) (l : List Section) :
    ∀ a, firstMaxBy f a l ∈ a :: l := by
  induction l with
  | nil => intro a; simp [firstMaxBy]
  | cons x l ih =>
    intro a
    rw [firstMaxBy_cons]
    have h := ih (if f a < f x then x else a)
    rcases List.mem_cons.mp h with h1 | h1
    · rw [h1]
      split <;> simp
    · exact List.mem_cons_of_mem _ (List.mem_cons_of_mem _ h1)

theorem firstMaxBy_ge (f : Section → Int) (l : List Section) :
    ∀ a, ∀ x ∈ a :: l, f x ≤ f (firstMaxBy f a l) := by
  induction l with
  | nil =>
    intro a x hx
    rcases List.mem_cons.mp hx with h | h
    · subst h; exact le_refl _
    · simp at h
  | cons y l ih =>
    intro a x hx
    rw [firstMaxBy_cons]
    by_cases hcase : f a < f y
    · rw [if_pos hcase]
      have hy := ih y y (by simp)
      rcases List.mem_cons.mp hx with h | h
      · subst h; omega
      · rcases List.mem_cons.mp h with h2 | h2
        · subst h2; omega
        · exact ih y x (List.mem_cons_of_mem _ h2)
    · rw [if_neg hcase]
      have ha := ih a a (by simp)
      rcases List.mem_cons.mp hx with h | h
      · subst h; omega
      · rcases List.mem_cons.mp h with h2 | h2
        · subst h2; omega
        · exact ih a x (List.mem_cons_of_mem _ h2)

theorem firstMaxBy_earliest (f : Section → Int) (l : List Section) :
    ∀ a, (a :: l).Pairwise (fun u v => u.start_line ≤ v.start_line) →
      ∀ x ∈ a :: l, f x = f (firstMaxBy f a l) →
        (firstMaxBy f a l).start_line ≤ x.start_line := by
  induction l with
  | nil =>
    intro a _ x hx hfx
    rcases List.mem_cons.mp hx with h | h
    · subst h; exact le_refl _
    · simp at h
  | cons y l ih =>
    intro a hsorted x hx hfx
    have hay : a.start_line ≤ y.start_line :=
      (List.pairwise_cons.mp hsorted).1 y (by simp)
    have hal : ∀ z ∈ l, a.start_line ≤ z.start_line := fun z hz =>
      (List.pairwise_cons.mp hsorted).1 z (List.mem_cons_of_mem _ hz)
    have htail := (List.pairwise_cons.mp hsorted).2
    have hyl := (List.pairwise_cons.mp htail).1
    have htail2 := (List.pairwise_cons.mp htail).2
    rw [firstMaxBy_cons] at hfx ⊢
    by_cases hcase : f a < f y
    · rw [if_pos hcase] at hfx ⊢
      have hsorted2 : (y :: l).Pairwise (fun u v => u.start_line ≤ v.start_line) :=
        List.pairwise_cons.mpr ⟨hyl, htail2⟩
      rcases List.mem_cons.mp hx with h | h
      · have hge := firstMaxBy_ge f l y y (by simp)
        rw [h] at hfx
        omega
      · exact ih y hsorted2 x h hfx
    · rw [if_neg hcase] at hfx ⊢
      have hsorted2 : (a :: l).Pairwise (fun u v => u.start_line ≤ v.start_line) :=
        List.pairwise_cons.mpr ⟨hal, htail2⟩
      rcases List.mem_cons.mp hx with h | h
      · exact ih a hsorted2 x (List.mem_cons.mpr (Or.inl h)) hfx
      · rcases List.mem_cons.mp h with h2 | h2
        · have hge := firstMaxBy_ge f l a a (by simp)
          rw [h2] at hfx
          have hfa : f a = f (firstMaxBy f a l) := by omega
          have h3 := ih a hsorted2 a (by simp) hfa
          rw [h2]
          omega
        · exact ih a hsorted2 x (List.mem_cons_of_mem _ h2) hfx

/-- Claim C6: a group (of at least two occurrences, sorted as the
deduplicator sorts it) in which no consecutive page gap exceeds the
threshold collapses to exactly one Section — the occurrence with the
largest line span, ties resolved in favour of the earliest `start_line`. -/
theorem claim_C6 (occs : List Section)
    (hlen : 2 ≤ occs.length)
    (hgap : anyGapExceeds occs = false)
    (hline : occs.Pairwise (fun u v => u.start_line ≤ v.start_line)) :
    ∃ m, mergeOrDedupOccurrences occs = [m] ∧ m ∈ occs ∧
      (∀ x ∈ occs, x.end_line - x.start_line ≤ m.end_line - m.start_line) ∧
      (∀ x ∈ occs, x.end_line - x.start_line = m.end_line - m.start_line →
        m.start_line ≤ x.start_line) := by
  cases occs with
  | nil => simp at hlen
  | cons a rest =>
    refine ⟨firstMaxBy (fun s => s.end_line - s.start_line) a rest, ?_, ?_, ?_, ?_⟩
    · unfold mergeOrDedupOccurrences
      rw [if_neg (by simp at hlen ⊢; omega), hgap]
      simp
    · exact firstMaxBy_mem _ rest a
    · exact fun x hx => firstMaxBy_ge (fun s => s.end_line - s.start_line) rest a x hx
    · exact fun x hx hfx =>
        firstMaxBy_earliest (fun s => s.end_line - s.start_line) rest a hline x hx hfx

def c6o1 : Section :=
  ⟨SectionType.chapter, some 1, "t".toList, 0, 3, 10, 11, "f".toList, []⟩

def c6o2 : Section :=
  ⟨SectionType.chapter, some 1, "t".toList, 20, 27, 12, 13, "f".toList, []⟩

theorem claim_C6_witness :
    ∃ m, mergeOrDedupOccurrences [c6o1, c6o2] = [m] ∧ m ∈ [c6o1, c6o2] ∧
      (∀ x ∈ [c6o1, c6o2], x.end_line - x.start_line ≤ m.end_line - m.start_line) ∧
      (∀ x ∈ [c6o1, c6o2], x.end_line - x.start_line = m.end_line - m.start_line →
        m.start_line ≤ x.start_line) :=
  claim_C6 [c6o1, c6o2] (by decide) (by decide) (by decide)

/-! ## Claim C3: non-contiguous merge -/

def c3o1 : Section :=
  ⟨SectionType.chapter, some 1, "t".toList, 0, 3, 10, 11, "f".toList, []⟩

def c3o2 : Section :=
  ⟨SectionType.chapter, some 1, "t".toList, 5, 9, 12, 13, "f".toList, []⟩

def c3o3 : Section :=
  ⟨SectionType.chapter, some 1, "t".toList, 50, 60, 60, 61, "f".toList, []⟩

/-- Refutation of claim C3 as stated: in the group at pages 10, 12, 60 the
consecutive gap 12→60 exceeds the threshold, so the merger takes the
non-contiguous branch, but the page-12 occurrence (within the threshold of
the primary) is neither kept nor recorded as a continuation — it is silently
dropped, leaving exactly one continuation instead of two. -/
theorem claim_C3_counterexample :
    anyGapExceeds [c3o1, c3o2, c3o3] = true ∧
      (mergeOrDedupOccurrences [c3o1, c3o2, c3o3]).map
        (fun s => s.subsections.map (fun c => c.start_page)) = [[60]] ∧
      ¬ ∃ s ∈ mergeOrDedupOccurrences [c3o1, c3o2, c3o3],
          (∃ c ∈ s.subsections, c.start_page = 12) ∨ s.start_page = 12 := by
  refine ⟨by decide, by decide, by decide⟩

/-- Amended claim C3: when some consecutive gap exceeds the threshold, the
merger returns exactly one Section carrying the first occurrence's fields;
every other occurrence whose `start_page` exceeds the primary's by more than
the threshold is recorded as a continuation (with its own lines and pages
and the title annotated `(continued)`); occurrences within the threshold of
the primary are discarded, so the number of continuations added is the
number of far occurrences. -/
theorem claim_C3_amended (first : Section) (rest : List Section)
    (hgap : anyGapExceeds (first :: rest) = true) :
    ∃ m, mergeOrDedupOccurrences (first :: rest) = [m] ∧
      m.section_type = first.section_type ∧ m.number = first.number ∧
      m.title = first.title ∧ m.start_line = first.start_line ∧
      m.end_line = first.end_line ∧ m.start_page = first.start_page ∧
      m.end_page = first.end_page ∧ m.filename = first.filename ∧
      (∀ s ∈ rest,
        NON_CONTIGUOUS_PAGE_THRESHOLD < s.start_page - first.start_page →
          mkContinuation first s ∈ m.subsections) ∧
      m.subsections.length = first.subsections.length +
        (rest.filter (fun s =>
          decide (NON_CONTIGUOUS_PAGE_THRESHOLD < s.start_page - first.start_page))).length := by
  cases rest with
  | nil => simp [anyGapExceeds] at hgap
  | cons b rest2 =>
    have hres : mergeOrDedupOccurrences (first :: b :: rest2) =
        [{ first with subsections := first.subsections ++
            (((b :: rest2).filter (fun s =>
              decide (NON_CONTIGUOUS_PAGE_THRESHOLD < s.start_page - first.start_page))).map
              (mkContinuation first)) }] := by
      unfold mergeOrDedupOccurrences
      rw [if_neg (by simp)]
      rw [hgap]
      simp
    refine ⟨_, hres, rfl, rfl, rfl, rfl, rfl, rfl, rfl, rfl, ?_, ?_⟩
    · intro s hs hfar
      show mkContinuation first s ∈ first.subsections ++ _
      refine List.mem_append_right _ ?_
      exact List.mem_map_of_mem _ (List.mem_filter.mpr ⟨hs, by simpa using hfar⟩)
    · show (first.subsections ++ _).length = _
      simp

def c3w1 : Section :=
  ⟨SectionType.chapter, some 1, "t".toList, 0, 3, 10, 11, "f".toList, []⟩

def c3w2 : Section :=
  ⟨SectionType.chapter, some 1, "t".toList, 50, 60, 60, 61, "f".toList, []⟩

theorem claim_C3_witness :
    ∃ m, mergeOrDedupOccurrences (c3w1 :: [c3w2]) = [m] ∧
      m.section_type = c3w1.section_type ∧ m.number = c3w1.number ∧
      m.title = c3w1.title ∧ m.start_line = c3w1.start_line ∧
      m.end_line = c3w1.end_line ∧ m.start_page = c3w1.start_page ∧
      m.end_page = c3w1.end_page ∧ m.filename = c3w1.filename ∧
      (∀ s ∈ [c3w2],
        NON_CONTIGUOUS_PAGE_THRESHOLD < s.start_page - c3w1.start_page →
          mkContinuation c3w1 s ∈ m.subsections) ∧
      m.subsections.length = c3w1.subsections.length +
        ([c3w2].filter (fun s =>
          decide (NON_CONTIGUOUS_PAGE_THRESHOLD < s.start_page - c3w1.start_page))).length :=
  claim_C3_amended c3w1 [c3w2] (by decide)

/-! ## Claim C9: title-capture termination -/

def c9text : List Char := "CHAPTER 1\nAlpha\nINTRODUCTION\nx".toList

/-- Refutation of claim C9 as stated: with the standalone markers enabled,
the line `INTRODUCTION` matches a heading pattern of the configuration, yet
once capture has started it does not terminate capture — the extractor
appends it, so the chapter detected at line 0 gets the title
`Alpha INTRODUCTION`. -/
theorem claim_C9_counterexample :
    matchIntroduction "INTRODUCTION".toList = true ∧
      (detectSections c9text true 15).map (fun s => s.title) =
        ["Alpha INTRODUCTION".toList, []] := by
  refine ⟨by decide, by decide⟩

/-- A line that terminates title capture once text has been captured: blank,
page marker, separator, or one of the numbered chapter patterns (the
standalone markers are *not* consulted here, in any configuration). -/
def isTitleTerminator (l : List Char) : Bool :=
  decide (l = []) || isPageMarker l || startsWithEq l || matchesAnyChapterPattern l

/-- Amended claim C9: once title text has started being captured
(`found = true`), a blank line, a page-delimiter or separator line, or a
line matching one of the numbered heading patterns (chapter, part, section,
appendix) ends the capture with the parts collected so far; lines matching
only the standalone markers (Introduction/Glossary/Index) do not. -/
theorem claim_C9_amended (lines : List (List Char)) (i fuel : Nat)
    (acc : List (List Char))
    (hterm : isTitleTerminator (pyStrip (lines.getD i [])) = true) :
    extractGo lines i (fuel + 1) true acc = acc := by
  show extractGo lines i (Nat.succ fuel) true acc = acc
  unfold extractGo
  by_cases hlen : lines.length ≤ i
  · rw [if_pos hlen]
  · rw [if_neg hlen]
    set L := pyStrip (lines.getD i []) with hL
    by_cases h1 : L = []
    · simp [h1]
    · by_cases h2 : isPageMarker L
      · simp [h1, h2]
      · by_cases h3 : startsWithEq L
        · simp [h1, h3]
        · have h4 : matchesAnyChapterPattern L = true := by
            unfold isTitleTerminator at hterm
            simp [h1, h2, h3] at hterm
            exact hterm
          simp [h1, h2, h3, h4]

theorem claim_C9_witness :
    extractGo ["CHAPTER 2".toList] 0 (4 + 1) true ["Alpha".toList]
      = ["Alpha".toList] :=
  claim_C9_amended ["CHAPTER 2".toList] 0 4 ["Alpha".toList] (by decide)

/-! ## Claim C4: last-section boundary -/

def c4text : List Char :=
  "CHAPTER 1: Alpha\nbody\nCHAPTER 2: Beta includes stuff\nmore\ntail".toList

/-- Refutation of claim C4 as stated: the reference filter removes the
last-detected candidate (its title contains `includes`), and the final
Section keeps the stale boundary assigned at detection time: its `end_line`
is 1 although the document's last line index is 4, and its `end_page` is 0
although the last tracked page is 1. -/
theorem claim_C4_counterexample :
    (pipelineSections c4text).map (fun s => (s.end_line, s.end_page)) = [(1, 0)] ∧
      ((splitNl c4text).length : Int) - 1 = 4 ∧
      lastTrackedPage c4text false 15 = 1 := by
  refine ⟨by decide, by decide, by decide⟩

theorem setBounds_getLast (l : List Section) :
    ∀ (lastLine lastPage : Int), l ≠ [] →
      ∃ s0, l.getLast? = some s0 ∧
        (setBounds l lastLine lastPage).getLast? =
          some { s0 with end_line := lastLine, end_page := lastPage } := by
  induction l with
  | nil => intro _ _ h; exact absurd rfl h
  | cons s rest ih =>
    intro lastLine lastPage _
    cases rest with
    | nil => exact ⟨s, rfl, rfl⟩
    | cons t rest2 =>
      obtain ⟨s0, h1, h2⟩ := ih lastLine lastPage (by simp)
      refine ⟨s0, ?_, ?_⟩
      · rw [List.getLast?_cons_cons]
        exact h1
      · have hsb : ∃ u l2, setBounds (t :: rest2) lastLine lastPage = u :: l2 := by
          cases rest2 with
          | nil => exact ⟨_, _, rfl⟩
          | cons u2 r2 => exact ⟨_, _, rfl⟩
        obtain ⟨u, l2, hu⟩ := hsb
        show (setBounds (s :: t :: rest2) lastLine lastPage).getLast? = _
        have hstep : setBounds (s :: t :: rest2) lastLine lastPage =
            { s with end_line := t.start_line - 1, end_page := t.start_page - 1 }
              :: setBounds (t :: rest2) lastLine lastPage := rfl
        rw [hstep, hu, List.getLast?_cons_cons, ← hu]
        exact h2

/-- Amended claim C4: the invariant holds at detection time — after
`_set_section_boundaries`, the last detected Section's `end_line` is the
document's last line index and its `end_page` is the last tracked page.  The
TOC filter, reference filter and deduplicator do not restore this property
when they remove the last-detected candidate (see the counterexample), so
it survives to the final list only when the last-detected candidate does. -/
theorem claim_C4_amended (text : List Char) (strict : Bool) (look : Nat)
    (hne : detectSections text strict look ≠ []) :
    ∃ s, (detectSections text strict look).getLast? = some s ∧
      s.end_line = ((splitNl text).length : Int) - 1 ∧
      s.end_page = lastTrackedPage text strict look := by
  unfold detectSections at hne ⊢
  have hne2 : (detectScan text strict look).1 ≠ [] := by
    intro h
    apply hne
    show setBounds (detectScan text strict look).1 (((splitNl text).length : Int) - 1)
        (detectScan text strict look).2 = []
    rw [h]
    rfl
  obtain ⟨s0, _h1, h2⟩ := setBounds_getLast (detectScan text strict look).1
    (((splitNl text).length : Int) - 1) (detectScan text strict look).2 hne2
  exact ⟨_, h2, rfl, rfl⟩

def c4wtext : List Char := "CHAPTER 1: Alpha\nbody".toList

theorem claim_C4_witness :
    ∃ s, (detectSections c4wtext false 15).getLast? = some s ∧
      s.end_line = ((splitNl c4wtext).length : Int) - 1 ∧
      s.end_page = lastTrackedPage c4wtext false 15 :=
  claim_C4_amended c4wtext false 15 (by decide)

/-! ## Claim C10: no invariant check on `end_line < start_line` -/

theorem mem_sortByPage {l : List Section} {x : Section} :
    x ∈ sortByPage l ↔ x ∈ l := List.mem_insertionSort pageLe

theorem mem_sortByLine {l : List Section} {x : Section} :
    x ∈ sortByLine l ↔ x ∈ l := List.mem_insertionSort lineLe

/-- Every output of the merger carries the line span and filename of some
input occurrence. -/
theorem mergeOrDedup_origin (occs : List Section) :
    ∀ t ∈ mergeOrDedupOccurrences occs, ∃ s ∈ occs,
      t.start_line = s.start_line ∧ t.end_line = s.end_line ∧
      t.filename = s.filename := by
  intro t ht
  unfold mergeOrDedupOccurrences at ht
  split at ht
  · exact ⟨t, ht, rfl, rfl, rfl⟩
  · split at ht
    · cases occs with
      | nil => simp at ht
      | cons p se =>
        simp only [List.mem_singleton] at ht
        subst ht
        exact ⟨p, by simp, rfl, rfl, rfl⟩
    · cases occs with
      | nil => simp at ht
      | cons a rest =>
        simp only [List.mem_singleton] at ht
        subst ht
        exact ⟨firstMaxBy (fun s => s.end_line - s.start_line) a rest,
          firstMaxBy_mem _ rest a, rfl, rfl, rfl⟩

theorem dedupGroup_length_le_one (secs : List Section) (k : List Char) :
    (dedupGroup secs k).length ≤ 1 := by
  unfold dedupGroup
  split
  · omega
  · unfold mergeOrDedupOccurrences
    split
    · omega
    · split
      · split <;> simp
      · split <;> simp

theorem dedupGroup_origin (secs : List Section) (k : List Char) :
    ∀ t ∈ dedupGroup secs k, ∃ s ∈ secs,
      t.start_line = s.start_line ∧ t.end_line = s.end_line ∧
      t.filename = s.filename := by
  intro t ht
  unfold dedupGroup at ht
  split at ht
  · exact ⟨t, (List.mem_filter.mp ht).1, rfl, rfl, rfl⟩
  · obtain ⟨s, hs, h1, h2, h3⟩ := mergeOrDedup_origin _ t ht
    exact ⟨s, (List.mem_filter.mp (mem_sortByPage.mp hs)).1, h1, h2, h3⟩

theorem dedupGroup_filename (secs : List Section) (k : List Char) :
    ∀ t ∈ dedupGroup secs k, t.filename = k := by
  intro t ht
  unfold dedupGroup at ht
  split at ht
  · have := (List.mem_filter.mp ht).2
    simpa using this
  · obtain ⟨s, hs, _, _, hfn⟩ := mergeOrDedup_origin _ t ht
    have hs2 := (List.mem_filter.mp (mem_sortByPage.mp hs)).2
    rw [hfn]
    simpa using hs2

theorem dedupCore_origin (secs : List Section) :
    ∀ t ∈ dedupCore secs, ∃ s ∈ secs,
      t.start_line = s.start_line ∧ t.end_line = s.end_line ∧
      t.filename = s.filename := by
  intro t ht
  obtain ⟨k, _, htg⟩ := List.mem_flatMap.mp ht
  exact dedupGroup_origin secs k t htg

/-- Strictly increasing start lines make `start_line` injective on members. -/
theorem start_inj (secs : List Section)
    (hmono : secs.Pairwise (fun a b => a.start_line < b.start_line)) :
    ∀ a ∈ secs, ∀ b ∈ secs, a.start_line = b.start_line → a = b := by
  intro a ha b hb heq
  obtain ⟨i, hi⟩ := List.mem_iff_get.mp ha
  obtain ⟨j, hj⟩ := List.mem_iff_get.mp hb
  have hp := List.pairwise_iff_get.mp hmono
  rcases lt_trichotomy i j with h | h | h
  · have := hp i j h
    rw [hi, hj] at this
    omega
  · rw [← hi, ← hj, h]
  · have := hp j i h
    rw [hi, hj] at this
    omega

theorem flatMap_pairwise_filename (keys : List (List Char))
    (f : List Char → List Section) (hnd : keys.Nodup)
    (hfn : ∀ k, ∀ t ∈ f k, t.filename = k)
    (hlen : ∀ k, (f k).length ≤ 1) :
    (keys.flatMap f).Pairwise (fun a b => a.filename ≠ b.filename) := by
  induction keys with
  | nil => simp
  | cons k ks ih =>
    simp only [List.flatMap_cons]
    rw [List.pairwise_append]
    refine ⟨?_, ih (List.nodup_cons.mp hnd).2, ?_⟩
    · have hl := hlen k
      cases hfk : f k with
      | nil => simp
      | cons x t =>
        cases t with
        | nil => simp
        | cons y t2 =>
          rw [hfk] at hl
          simp at hl
    · intro a haf b hbf
      obtain ⟨k2, hk2, hbk2⟩ := List.mem_flatMap.mp hbf
      have h1 := hfn k a haf
      have h2 := hfn k2 b hbk2
      rw [h1, h2]
      have hknot : k ∉ ks := (List.nodup_cons.mp hnd).1
      exact fun heq => hknot (heq ▸ hk2)

theorem dedupCore_pairwise_ne (secs : List Section)
    (hmono : secs.Pairwise (fun a b => a.start_line < b.start_line)) :
    (dedupCore secs).Pairwise (fun a b => a.start_line ≠ b.start_line) := by
  have hfn := flatMap_pairwise_filename ((secs.map (fun s => s.filename)).dedup)
    (dedupGroup secs) (List.nodup_dedup _) (dedupGroup_filename secs)
    (dedupGroup_length_le_one secs)
  refine List.Pairwise.imp_of_mem ?_ hfn
  intro a b ha hb hne heq
  obtain ⟨sa, hsa, ha1, _, ha3⟩ := dedupCore_origin secs a ha
  obtain ⟨sb, hsb, hb1, _, hb3⟩ := dedupCore_origin secs b hb
  have hab : sa = sb := start_inj secs hmono sa hsa sb hsb (by omega)
  apply hne
  rw [ha3, hb3, hab]

theorem sortByLine_pairwise_lt (l : List Section)
    (hne : l.Pairwise (fun a b => a.start_line ≠ b.start_line)) :
    (sortByLine l).Pairwise (fun a b => a.start_line < b.start_line) := by
  have hle := sortByLine_pairwise l
  have hne2 : (sortByLine l).Pairwise (fun a b => a.start_line ≠ b.start_line) :=
    ((List.perm_insertionSort lineLe l).pairwise_iff (fun h => h.symm)).mpr hne
  exact (hle.and hne2).imp (fun h => lt_of_le_of_ne h.1 h.2)

theorem resolveBounds_start_le_end (l : List Section)
    (hlt : l.Pairwise (fun a b => a.start_line < b.start_line))
    (hse : ∀ s ∈ l, s.start_line ≤ s.end_line) :
    ∀ t ∈ resolveBounds l, t.start_line ≤ t.end_line := by
  induction l with
  | nil => simp [resolveBounds]
  | cons s rest ih =>
    cases rest with
    | nil =>
      intro t ht
      simp only [resolveBounds, List.mem_singleton] at ht
      subst ht
      exact hse t (by simp)
    | cons u rest2 =>
      intro t ht
      rw [resolveBounds_cons_cons] at ht
      rcases List.mem_cons.mp ht with h | h
      · subst h
        show s.start_line ≤ u.start_line - 1
        have : s.start_line < u.start_line :=
          (List.pairwise_cons.mp hlt).1 u (by simp)
        omega
      · exact ih (List.pairwise_cons.mp hlt).2
          (fun x hx => hse x (List.mem_cons_of_mem _ hx)) t h

/-- Strictly increasing inputs with well-formed spans resolve to
well-formed spans. -/
theorem dedup_start_le_end (secs : List Section)
    (hmono : secs.Pairwise (fun a b => a.start_line < b.start_line))
    (hse : ∀ s ∈ secs, s.start_line ≤ s.end_line) :
    ∀ t ∈ dedupSections secs, t.start_line ≤ t.end_line := by
  intro t ht
  unfold dedupSections at ht
  refine resolveBounds_start_le_end _ ?_ ?_ t ht
  · exact sortByLine_pairwise_lt _ (dedupCore_pairwise_ne secs hmono)
  · intro u hu
    obtain ⟨s, hs, h1, h2, _⟩ := dedupCore_origin secs u (mem_sortByLine.mp hu)
    rw [h1, h2]
    exact hse s hs

def c10a : Section :=
  ⟨SectionType.chapter, some 1, "a".toList, 5, 20, 1, 2, "A".toList, []⟩

def c10b : Section :=
  ⟨SectionType.chapter, some 2, "b".toList, 5, 20, 2, 2, "B".toList, []⟩

/-- Refutation of claim C10 as stated: on two sections sharing a start line,
boundary recalculation produces a Section with `end_line < start_line` and
returns it in the ordinary result list — there is no invariant check and no
error channel in the engine, so the violation is silently accepted rather
than reported as a fatal error. -/
theorem claim_C10_counterexample :
    (dedupSections [c10a, c10b]).map (fun s => (s.start_line, s.end_line))
        = [(5, 4), (5, 20)] ∧
      ∃ s ∈ dedupSections [c10a, c10b], s.end_line < s.start_line := by
  refine ⟨by decide, by decide⟩

/-- Amended claim C10: the engine performs no invariant check and surfaces
no failure; instead, for every input whose start lines are strictly
increasing (as the detector guarantees) and whose sections satisfy
`start_line ≤ end_line`, deduplication and boundary resolution never
produce a Section with `end_line < start_line`. -/
theorem claim_C10_amended (secs : List Section)
    (hmono : secs.Pairwise (fun a b => a.start_line < b.start_line))
    (hse : ∀ s ∈ secs, s.start_line ≤ s.end_line) :
    ∀ t ∈ dedupSections secs, t.start_line ≤ t.end_line :=
  dedup_start_le_end secs hmono hse

def c10w1 : Section :=
  ⟨SectionType.chapter, some 1, "a".toList, 0, 3, 1, 1, "A".toList, []⟩

def c10w2 : Section :=
  ⟨SectionType.chapter, some 2, "b".toList, 4, 9, 2, 2, "B".toList, []⟩

theorem claim_C10_witness : c10w2.start_line ≤ c10w2.end_line :=
  claim_C10_amended [c10w1, c10w2] (by decide) (by decide) c10w2 (by decide)

/-! ## Claim C2: coverage of the document by spans -/

/-- `rs` is a gap-free chain of nonempty integer ranges starting at `a`. -/
def chainRanges (a : Int) : List (Int × Int) → Prop
  | [] => True
  | r :: rest => r.1 = a ∧ r.1 ≤ r.2 ∧ chainRanges (r.2 + 1) rest

theorem chainRanges_bounds : ∀ (rs : List (Int × Int)) (a : Int), chainRanges a rs →
    ∀ r ∈ rs, a ≤ r.1 ∧ r.1 ≤ r.2 := by
  intro rs
  induction rs with
  | nil => intro a _ r hr; simp at hr
  | cons r rest ih =>
    intro a hc r2 hr2
    obtain ⟨h1, h2, h3⟩ := hc
    rcases List.mem_cons.mp hr2 with h | h
    · subst h
      exact ⟨by omega, h2⟩
    · have := ih (r.2 + 1) h3 r2 h
      exact ⟨by omega, this.2⟩

theorem chainRanges_cover : ∀ (rs : List (Int × Int)) (a : Int), chainRanges a rs →
    ∀ lastR, rs.getLast? = some lastR →
      ∀ x : Int, (a ≤ x ∧ x ≤ lastR.2) ↔ ∃ r ∈ rs, r.1 ≤ x ∧ x ≤ r.2 := by
  intro rs
  induction rs with
  | nil => intro a _ lastR h; simp at h
  | cons r rest ih =>
    intro a hc lastR hlast x
    obtain ⟨h1, h2, h3⟩ := hc
    cases rest with
    | nil =>
      have hr : lastR = r := by simpa using hlast.symm
      rw [hr]
      constructor
      · intro hx
        exact ⟨r, by simp, by omega, hx.2⟩
      · rintro ⟨r2, hr2, hb1, hb2⟩
        simp only [List.mem_singleton] at hr2
        subst hr2
        omega
    | cons r2 rest2 =>
      rw [List.getLast?_cons_cons] at hlast
      have hiff := ih (r.2 + 1) h3 lastR hlast x
      have hb := chainRanges_bounds (r2 :: rest2) (r.2 + 1) h3
      have hlmem : lastR ∈ r2 :: rest2 := by
        obtain ⟨hne2, heq⟩ :=
          List.mem_getLast?_eq_getLast (l := r2 :: rest2) (x := lastR) hlast
        rw [heq]
        exact List.getLast_mem hne2
      have hlb := hb lastR hlmem
      constructor
      · intro hx
        by_cases hxr : x ≤ r.2
        · exact ⟨r, by simp, by omega, hxr⟩
        · obtain ⟨r3, hr3, hb3⟩ := hiff.mp ⟨by omega, hx.2⟩
          exact ⟨r3, List.mem_cons_of_mem _ hr3, hb3⟩
      · rintro ⟨r3, hr3, hb1, hb2⟩
        rcases List.mem_cons.mp hr3 with h | h
        · subst h
          omega
        · have := hiff.mpr ⟨r3, h, hb1, hb2⟩
          omega

theorem chainRanges_disjoint : ∀ (rs : List (Int × Int)) (a : Int), chainRanges a rs →
    rs.Pairwise (fun r t => ∀ x : Int,
      ¬((r.1 ≤ x ∧ x ≤ r.2) ∧ (t.1 ≤ x ∧ x ≤ t.2))) := by
  intro rs
  induction rs with
  | nil => intro a _; simp
  | cons r rest ih =>
    intro a hc
    obtain ⟨h1, h2, h3⟩ := hc
    rw [List.pairwise_cons]
    refine ⟨?_, ih (r.2 + 1) h3⟩
    intro t ht x hx
    have := chainRanges_bounds rest (r.2 + 1) h3 t ht
    omega

/-- Adjacent, well-formed sections tile the integers from the first
section's start line onward. -/
theorem sections_chainRanges : ∀ (s : Section) (tail : List Section),
    List.Chain' adjRel (s :: tail) →
    (∀ u ∈ s :: tail, u.start_line ≤ u.end_line) →
    chainRanges s.start_line
      ((s :: tail).map (fun u => (u.start_line, u.end_line))) := by
  intro s tail
  induction tail generalizing s with
  | nil =>
    intro _ hse
    exact ⟨rfl, hse s (by simp), trivial⟩
  | cons t rest ih =>
    intro hchain hse
    have hadj : adjRel s t := (List.chain'_cons.mp hchain).1
    have hch2 : List.Chain' adjRel (t :: rest) := (List.chain'_cons.mp hchain).2
    refine ⟨rfl, hse s (by simp), ?_⟩
    show chainRanges (s.end_line + 1) _
    rw [show s.end_line + 1 = t.start_line from by have := hadj.1; omega]
    exact ih t hch2 (fun u hu => hse u (List.mem_cons_of_mem _ hu))

theorem primaryRanges_getLast (out : List Section) (lastS : Section)
    (hlast : out.getLast? = some lastS) :
    (primaryRanges out).getLast? = some (lastS.start_line, lastS.end_line) := by
  unfold primaryRanges
  rw [List.getLast?_append, List.getLast?_map, hlast]
  rfl

def c2text : List Char :=
  ("CHAPTER 1: Alpha\nbody\nPAGE 60\nCHAPTER 1: Alpha\nbody2\nPAGE 70\n" ++
    "CHAPTER 2: Beta\nbody3\nCHAPTER 3: Gamma includes stuff\ntail").toList

/-- Refutation of claim C2 as stated: on this document the final ranges are
the primary spans `[0,5]` and `[6,7]` plus the continuation `[3,5]` — the
continuation overlaps the first primary span, and lines 8 and 9 of the
10-line document are covered by nothing (the reference filter removed the
last-detected candidate, leaving the last section's boundary stale), so the
union is not the whole line range `[0, lastLine]`. -/
theorem claim_C2_counterexample :
    ¬ coversExactly (allRanges (pipelineSections c2text))
        (((splitNl c2text).length : Int) - 1) := by
  intro hco
  have h8 := (hco.1 8).mp ⟨by decide, by decide⟩
  have hr : allRanges (pipelineSections c2text) = [(0, 5), (6, 7), (3, 5)] := by
    decide
  rw [hr] at h8
  revert h8
  decide

/-- Amended claim C2: for inputs with strictly increasing, nonnegative start
lines and well-formed spans (as the detector produces), the front-matter
span together with the primary spans of the resolved Sections covers
`[0, E]` exactly and disjointly, where `E` is the endLine of the final
(last) Section; `E` is the document's last line only when the last-detected
candidate survives, and continuation ranges are excluded because they may
overlap primary spans (see the counterexample). -/
theorem claim_C2_amended (secs : List Section)
    (hmono : secs.Pairwise (fun a b => a.start_line < b.start_line))
    (hse : ∀ s ∈ secs, s.start_line ≤ s.end_line)
    (hpos : ∀ s ∈ secs, 0 ≤ s.start_line)
    (hne : dedupSections secs ≠ []) :
    ∃ lastS, (dedupSections secs).getLast? = some lastS ∧
      coversExactly (primaryRanges (dedupSections secs)) lastS.end_line := by
  obtain ⟨s0, rest, hout⟩ : ∃ s0 rest, dedupSections secs = s0 :: rest := by
    cases h : dedupSections secs with
    | nil => exact absurd h hne
    | cons a b => exact ⟨a, b, rfl⟩
  have hchain : List.Chain' adjRel (dedupSections secs) :=
    resolveBounds_chain (sortByLine (dedupCore secs))
  have houtse : ∀ t ∈ dedupSections secs, t.start_line ≤ t.end_line :=
    dedup_start_le_end secs hmono hse
  have houtstart : ∀ t ∈ dedupSections secs, ∃ s ∈ secs,
      t.start_line = s.start_line := by
    intro t ht
    have hmap := resolveBounds_map_start_line (sortByLine (dedupCore secs))
    have h1 : t.start_line ∈ (dedupSections secs).map Section.start_line :=
      List.mem_map_of_mem _ ht
    rw [show (dedupSections secs).map Section.start_line
        = (sortByLine (dedupCore secs)).map Section.start_line from hmap] at h1
    obtain ⟨u, hu, hu2⟩ := List.mem_map.mp h1
    obtain ⟨s, hs, hs1, _, _⟩ := dedupCore_origin secs u (mem_sortByLine.mp hu)
    exact ⟨s, hs, by omega⟩
  have hpos0 : 0 ≤ s0.start_line := by
    obtain ⟨s, hs, heq⟩ := houtstart s0 (by rw [hout]; simp)
    rw [heq]
    exact hpos s hs
  have hchain2 : List.Chain' adjRel (s0 :: rest) := by
    rw [← hout]
    exact hchain
  have hse2 : ∀ u ∈ s0 :: rest, u.start_line ≤ u.end_line :=
    fun u hu => houtse u (by rw [hout]; exact hu)
  have hspans := sections_chainRanges s0 rest hchain2 hse2
  have hcr : chainRanges 0 (primaryRanges (dedupSections secs)) := by
    rw [hout]
    show chainRanges 0
      ((if 0 < s0.start_line then [((0 : Int), s0.start_line - 1)] else []) ++
        List.map (fun s => (s.start_line, s.end_line)) (s0 :: rest))
    by_cases h0 : 0 < s0.start_line
    · rw [if_pos h0]
      refine ⟨rfl, by omega, ?_⟩
      show chainRanges (s0.start_line - 1 + 1) _
      rw [show s0.start_line - 1 + 1 = s0.start_line from by omega]
      exact hspans
    · rw [if_neg h0]
      have hz : s0.start_line = 0 := by omega
      simp only [List.nil_append]
      rw [← hz]
      exact hspans
  have hlastS : ∃ lastS, (dedupSections secs).getLast? = some lastS :=
    Option.isSome_iff_exists.mp (List.getLast?_isSome.mpr hne)
  obtain ⟨lastS, hlast⟩ := hlastS
  refine ⟨lastS, hlast, ?_, ?_⟩
  · have hpl := primaryRanges_getLast _ lastS hlast
    have hcov := chainRanges_cover (primaryRanges (dedupSections secs)) 0 hcr
      (lastS.start_line, lastS.end_line) hpl
    exact fun x => hcov x
  · exact chainRanges_disjoint _ 0 hcr

def c2w1 : Section :=
  ⟨SectionType.chapter, some 1, "a".toList, 2, 5, 1, 1, "A".toList, []⟩

def c2w2 : Section :=
  ⟨SectionType.chapter, some 2, "b".toList, 6, 9, 2, 2, "B".toList, []⟩

theorem claim_C2_witness :
    ∃ lastS, (dedupSections [c2w1, c2w2]).getLast? = some lastS ∧
      coversExactly (primaryRanges (dedupSections [c2w1, c2w2])) lastS.end_line :=
  claim_C2_amended [c2w1, c2w2] (by decide) (by decide) (by decide) (by decide)

end GF
